import Mathlib

/-
Verification of the maze reachability engine (maze.py).

The engine converts a rectangular grid of OPEN/WALL cells into an N x N
adjacency matrix (N = R * C) with self-loops on open cells and symmetric
edges between 8-neighboring open cells, then iterates
T := boolean(T * transpose(T)) exactly N times to obtain the accessibility
matrix, and answers point queries by flattening coordinates to node indices
and reading the matrix entry, with NumPy indexing semantics (negative
indices wrap around, indices outside the wrapped range raise IndexError,
modelled as Option.none).
-/

set_option maxRecDepth 10000

namespace MazeSpec

/-- A rectangular grid. `cell i j = true` means WALL (value 1 in the source),
`false` means OPEN (value 0); only indices with `i < R`, `j < C` are ever read. -/
structure Grid where
  R : Nat
  C : Nat
  cell : Nat → Nat → Bool

/-- Read a list at an index, with a default out of range (list indexing). -/
def getL {α : Type} (d : α) : List α → Nat → α
  | [], _ => d
  | x :: _, 0 => x
  | _ :: t, n + 1 => getL d t n

/-- Write a list at an index; out of range is a no-op. -/
def setL {α : Type} : List α → Nat → α → List α
  | [], _, _ => []
  | _ :: t, 0, v => v :: t
  | x :: t, n + 1, v => x :: setL t n v

/-- Matrices of natural numbers, as rows of entries (NumPy arrays hold
0/1-valued floats and small exact integer counts here). -/
abbrev Mat := List (List Nat)

/-- Read a matrix entry, 0 out of range. -/
def getE (m : Mat) (p q : Nat) : Nat := getL 0 (getL [] m p) q

/-- Set a matrix entry to 1 (every store in the source writes the value 1). -/
def setE (m : Mat) (p q : Nat) : Mat := setL m p (setL (getL [] m p) q 1)

/-- np.zeros((n,n)). -/
def zerosM (n : Nat) : Mat := List.replicate n (List.replicate n 0)

/-- Dot product of two rows. -/
def dot : List Nat → List Nat → Nat
  | a :: u, b :: v => a * b + dot u v
  | _, _ => 0

/-- np.matmul(T, T.T): entry (p,q) is the dot product of rows p and q of T. -/
def matmulT (T : Mat) : Mat := T.map (fun row => T.map (fun row2 => dot row row2))

/-- T[T>0] = 1: every positive entry becomes 1, the rest are unchanged. -/
def boolMat (T : Mat) : Mat := T.map (List.map (fun e => if 0 < e then 1 else e))

/-- One iteration of the accessibility loop:
T := np.matmul(T, T.T); T[T>0] = 1. -/
def stepB (T : Mat) : Mat := boolMat (matmulT T)

/-- MazeSolver._get_grid_coord_value: the grid value at (i,j), or -1 out of bounds. -/
def get_grid_coord_value (g : Grid) (i j : Int) : Int :=
  if 0 ≤ i ∧ i < (g.R : Int) then
    if 0 ≤ j ∧ j < (g.C : Int) then
      (if g.cell i.toNat j.toNat then 1 else 0)
    else -1
  else -1

/-- MazeSolver._grid_coords_to_adjacency_coords: flatten (i,j) to i*C + j. -/
def grid_coords_to_adjacency_coords (g : Grid) (i j : Int) : Int :=
  i * (g.C : Int) + j

/-- The eight neighbor offsets, in the order the source checks them:
below, below-left, below-right, above, above-right, above-left, right, left. -/
def dirs : List (Int × Int) :=
  [(1, 0), (1, -1), (1, 1), (-1, 0), (-1, 1), (-1, -1), (0, 1), (0, -1)]

/-- One neighbor check of the adjacency builder: if the cell at offset `d`
from (i,j) is in bounds and OPEN, both symmetric entries are set to 1. -/
def addNeighbor (g : Grid) (node1 : Nat) (i j : Nat) (d : Int × Int) (m : Mat) : Mat :=
  if get_grid_coord_value g ((i : Int) + d.1) ((j : Int) + d.2) = 0 then
    let node2 := (grid_coords_to_adjacency_coords g ((i : Int) + d.1) ((j : Int) + d.2)).toNat
    setE (setE m node1 node2) node2 node1
  else m

/-- The body of the double loop of the adjacency builder for one cell (i,j):
if the cell is OPEN, set the self-loop and check all eight neighbors. -/
def cellStep (g : Grid) (i j : Nat) (m : Mat) : Mat :=
  let node1 := (grid_coords_to_adjacency_coords g (i : Int) (j : Int)).toNat
  if get_grid_coord_value g (i : Int) (j : Int) = 0 then
    dirs.foldl (fun m' d => addNeighbor g node1 i j d m') (setE m node1 node1)
  else m

/-- MazeSolver._grid_to_adjacency_matrix: start from np.zeros((N,N)) and run
the double loop over all cells. -/
def grid_to_adjacency_matrix (g : Grid) : Mat :=
  (List.range g.R).foldl
    (fun m i => (List.range g.C).foldl (fun m' j => cellStep g i j m') m)
    (zerosM (g.R * g.C))

/-- The state built by MazeSolver.__init__. -/
structure MazeSolver where
  grid : Grid
  adjacency_matrix : Mat
  accessibility_matrix : Mat

/-- MazeSolver.__init__: build the adjacency matrix, then iterate
T := boolean(T * T.T) exactly max_hops = R*C times. -/
def MazeSolver.init (g : Grid) : MazeSolver :=
  let adjacency_matrix := grid_to_adjacency_matrix g
  let max_hops := g.R * g.C
  let accessibility_matrix := stepB^[max_hops] adjacency_matrix
  ⟨g, adjacency_matrix, accessibility_matrix⟩

/-- NumPy index resolution along one axis of length n: indices in [0,n) are
used as is, indices in [-n,0) wrap by adding n, anything else raises
IndexError (modelled as none). -/
def npIndex (n : Nat) (i : Int) : Option Nat :=
  if 0 ≤ i ∧ i < (n : Int) then some i.toNat
  else if -(n : Int) ≤ i ∧ i < 0 then some (i + (n : Int)).toNat
  else none

/-- NumPy 2-D read m[i,j] with wrap-around for negative indices; none models
an IndexError escaping to the caller. -/
def mgetOpt (m : Mat) (i j : Int) : Option Nat :=
  match npIndex m.length i with
  | none => none
  | some p =>
    match npIndex (getL [] m p).length j with
    | none => none
    | some q => some (getL 0 (getL [] m p) q)

/-- MazeSolver.is_connected: flatten both coordinate pairs with the
construction grid's column count and read the accessibility matrix;
the `grid` argument is accepted but never used. -/
def MazeSolver.is_connected (s : MazeSolver) (grid : Grid)
    (aX aY bX bY : Int) : Option Bool :=
  let nodeA := grid_coords_to_adjacency_coords s.grid aX aY
  let nodeB := grid_coords_to_adjacency_coords s.grid bX bY
  (mgetOpt s.accessibility_matrix nodeA nodeB).map (fun v => decide (0 < v))

/-! Specification-side notions: open cells, the 8-connected step relation on
cells, and connectivity as its transitive closure. -/

/-- Cell (i,j) is in bounds and OPEN. -/
def openCell (g : Grid) (i j : Nat) : Prop :=
  i < g.R ∧ j < g.C ∧ g.cell i j = false

/-- The node index of cell (i,j). -/
def nodeOf (g : Grid) (i j : Nat) : Nat := i * g.C + j

/-- (i',j') is (i,j) itself or one of its 8 surrounding positions
(Chebyshev distance at most 1). -/
def kingStep (i j i' j' : Nat) : Prop :=
  (i = i' ∨ i = i' + 1 ∨ i' = i + 1) ∧ (j = j' ∨ j = j' + 1 ∨ j' = j + 1)

/-- One step between cells: both in bounds and OPEN, and at Chebyshev
distance at most 1 (a cell steps to itself when OPEN). -/
def cellAdj (g : Grid) (a b : Nat × Nat) : Prop :=
  openCell g a.1 a.2 ∧ openCell g b.1 b.2 ∧ kingStep a.1 a.2 b.1 b.2

/-- Two cells are joined by a path of 8-connected OPEN cells (a cell
trivially reaches itself when it is OPEN). -/
def Connected (g : Grid) (a b : Nat × Nat) : Prop :=
  Relation.TransGen (cellAdj g) a b

/-- The step relation transported to node indices. -/
def AdjN (g : Grid) (p q : Nat) : Prop :=
  ∃ a b : Nat × Nat, cellAdj g a b ∧ p = nodeOf g a.1 a.2 ∧ q = nodeOf g b.1 b.2

/-- Walks of a given exact length in the node step relation. -/
def WalkN (g : Grid) : Nat → Nat → Nat → Prop
  | 0, p, q => p = q
  | n + 1, p, q => ∃ r, AdjN g p r ∧ WalkN g n r q

/-- An n x n matrix: n rows, each of length n. -/
def WF (m : Mat) (n : Nat) : Prop :=
  m.length = n ∧ ∀ row ∈ m, row.length = n

/-- The 3x3 test grid of the source's main: WALL down the middle column. -/
def grid1 : Grid := ⟨3, 3, fun _ j => j == 1⟩

/-- grid1 with the wall cell (2,1) opened. -/
def grid2 : Grid := ⟨3, 3, fun i j => j == 1 && !(i == 2)⟩

/-- A 1x1 all-open grid. -/
def grid11 : Grid := ⟨1, 1, fun _ _ => false⟩

/-- A grid with zero rows and zero columns. -/
def grid00 : Grid := ⟨0, 0, fun _ _ => false⟩

/-- A 2x2 all-open grid. -/
def grid22 : Grid := ⟨2, 2, fun _ _ => false⟩

/-! Basic lemmas on list reads and writes. -/

theorem length_setL {α : Type} (l : List α) (n : Nat) (v : α) :
    (setL l n v).length = l.length := by
  induction l generalizing n with
  | nil => rfl
  | cons x t ih =>
    cases n with
    | zero => rfl
    | succ k => simpa [setL] using ih k

theorem getL_ge {α : Type} (d : α) (l : List α) (n : Nat) (h : l.length ≤ n) :
    getL d l n = d := by
  induction l generalizing n with
  | nil => rfl
  | cons x t ih =>
    cases n with
    | zero => simp at h
    | succ k => simpa [getL] using ih k (by simpa using h)

theorem setL_ge {α : Type} (l : List α) (n : Nat) (v : α) (h : l.length ≤ n) :
    setL l n v = l := by
  induction l generalizing n with
  | nil => rfl
  | cons x t ih =>
    cases n with
    | zero => simp at h
    | succ k => simpa [setL] using ih k (by simpa using h)

theorem getL_setL_self {α : Type} (d : α) (l : List α) (n : Nat) (v : α)
    (h : n < l.length) : getL d (setL l n v) n = v := by
  induction l generalizing n with
  | nil => simp at h
  | cons x t ih =>
    cases n with
    | zero => rfl
    | succ k => simpa [setL, getL] using ih k (by simpa using h)

theorem getL_setL_ne {α : Type} (d : α) (l : List α) (n m : Nat) (v : α)
    (h : n ≠ m) : getL d (setL l n v) m = getL d l m := by
  induction l generalizing n m with
  | nil => rfl
  | cons x t ih =>
    cases n with
    | zero =>
      cases m with
      | zero => exact absurd rfl h
      | succ k => rfl
    | succ k =>
      cases m with
      | zero => rfl
      | succ k2 => simpa [setL, getL] using ih k k2 (by omega)

theorem getL_map {α β : Type} (d1 : β) (d2 : α) (f : α → β) (l : List α) (i : Nat)
    (h : i < l.length) : getL d1 (l.map f) i = f (getL d2 l i) := by
  induction l generalizing i with
  | nil => simp at h
  | cons x t ih =>
    cases i with
    | zero => rfl
    | succ k => simpa [getL] using ih k (by simpa using h)

theorem getL_mem {α : Type} (d : α) (l : List α) (i : Nat) (h : i < l.length) :
    getL d l i ∈ l := by
  induction l generalizing i with
  | nil => simp at h
  | cons x t ih =>
    cases i with
    | zero => simp [getL]
    | succ k => exact List.mem_cons_of_mem x (ih k (by simpa using h))

theorem getL_replicate {α : Type} (d x : α) (n i : Nat) :
    getL d (List.replicate n x) i = if i < n then x else d := by
  induction n generalizing i with
  | zero => simp [getL_ge]
  | succ k ih =>
    cases i with
    | zero => simp [List.replicate, getL]
    | succ j => simpa [List.replicate, getL] using ih j

/-! Lemmas on matrix entries. -/

theorem getE_zerosM (n p q : Nat) : getE (zerosM n) p q = 0 := by
  unfold getE zerosM
  rcases lt_or_ge p n with hp | hp
  · rw [getL_replicate]
    simp only [hp, if_true]
    rw [getL_replicate]
    by_cases hq : q < n <;> simp [hq]
  · rw [getL_replicate]
    simp [Nat.not_lt_of_ge hp, getL]

theorem WF_zerosM (n : Nat) : WF (zerosM n) n := by
  constructor
  · simp [zerosM]
  · intro row hrow
    simp only [zerosM, List.mem_replicate] at hrow
    simp [hrow.2]

theorem WF_row_length {m : Mat} {n : Nat} (h : WF m n) (p : Nat) (hp : p < n) :
    (getL [] m p).length = n := by
  exact h.2 _ (getL_mem [] m p (by rw [h.1]; exact hp))

theorem WF_row_oob {m : Mat} {n : Nat} (h : WF m n) (p : Nat) (hp : n ≤ p) :
    getL [] m p = [] := getL_ge [] m p (by rw [h.1]; exact hp)

theorem mem_setL {α : Type} {l : List α} {n : Nat} {v x : α}
    (h : x ∈ setL l n v) : x ∈ l ∨ (x = v ∧ n < l.length) := by
  induction l generalizing n with
  | nil => simp [setL] at h
  | cons y t ih =>
    cases n with
    | zero =>
      rcases List.mem_cons.mp h with h1 | h1
      · exact Or.inr ⟨h1, by simp⟩
      · exact Or.inl (List.mem_cons_of_mem y h1)
    | succ k =>
      rcases List.mem_cons.mp h with h1 | h1
      · exact Or.inl (by simp [h1])
      · rcases ih h1 with h2 | h2
        · exact Or.inl (List.mem_cons_of_mem y h2)
        · exact Or.inr ⟨h2.1, by simpa using Nat.succ_lt_succ h2.2⟩

theorem WF_setE {m : Mat} {n : Nat} (h : WF m n) (p q : Nat) :
    WF (setE m p q) n := by
  constructor
  · rw [setE, length_setL, h.1]
  · intro row hrow
    rcases mem_setL hrow with hold | ⟨hnew, hp⟩
    · exact h.2 _ hold
    · rw [hnew, length_setL]
      exact WF_row_length h p (by rw [h.1] at hp; exact hp)

theorem getE_setE_self {m : Mat} {n : Nat} (h : WF m n) {p q : Nat}
    (hp : p < n) (hq : q < n) : getE (setE m p q) p q = 1 := by
  unfold getE setE
  rw [getL_setL_self _ _ _ _ (by rw [h.1]; exact hp)]
  exact getL_setL_self _ _ _ _ (by rw [WF_row_length h p hp]; exact hq)

theorem getE_setE_ne {m : Mat} {p' q' p q : Nat}
    (h : p ≠ p' ∨ q ≠ q') : getE (setE m p' q') p q = getE m p q := by
  unfold getE setE
  rcases h with h | h
  · rw [getL_setL_ne _ _ _ _ _ (Ne.symm h)]
  · rcases eq_or_ne p p' with rfl | hp
    · rcases lt_or_ge p m.length with hlt | hge
      · rw [getL_setL_self _ _ _ _ hlt]
        exact getL_setL_ne _ _ _ _ _ (Ne.symm h)
      · rw [setL_ge _ _ _ hge]
    · rw [getL_setL_ne _ _ _ _ _ (Ne.symm hp)]

theorem getE_setE_cases {m : Mat} {p' q' p q : Nat}
    (h : getE (setE m p' q') p q ≠ 0) :
    (p = p' ∧ q = q') ∨ getE m p q ≠ 0 := by
  by_cases hpq : p = p' ∧ q = q'
  · exact Or.inl hpq
  · refine Or.inr ?_
    rw [getE_setE_ne (by tauto)] at h
    exact h

theorem getE_setE_one_or {m : Mat} {p' q' p q : Nat}
    (h : getE m p q = 1) : getE (setE m p' q') p q = 1 := by
  by_cases hpq : p = p' ∧ q = q'
  · rcases hpq with ⟨rfl, rfl⟩
    rcases lt_or_ge p m.length with hlt | hge
    · unfold getE setE
      rw [getL_setL_self _ _ _ _ hlt]
      rcases lt_or_ge q (getL [] m p).length with hq | hq
      · exact getL_setL_self _ _ _ _ hq
      · unfold getE at h
        rw [getL_ge _ _ _ hq] at h
        exact absurd h (by simp)
    · unfold getE setE
      rw [setL_ge _ _ _ hge]
      exact h
  · rw [getE_setE_ne (by tauto)]
    exact h

theorem getE_oob_row {m : Mat} {n : Nat} (h : WF m n) {p : Nat} (hp : n ≤ p)
    (q : Nat) : getE m p q = 0 := by
  unfold getE
  rw [WF_row_oob h p hp]
  rfl

theorem getE_oob_col {m : Mat} {n : Nat} (h : WF m n) (p : Nat) {q : Nat}
    (hq : n ≤ q) : getE m p q = 0 := by
  unfold getE
  rcases lt_or_ge p n with hp | hp
  · exact getL_ge _ _ _ (by rw [WF_row_length h p hp]; exact hq)
  · rw [WF_row_oob h p hp]
    rfl

/-! Generic folding combinators used to reason about the builder's loops. -/

theorem foldl_inv {α β : Type} (P : β → Prop) (f : β → α → β) (l : List α) (b : β)
    (h0 : P b) (hstep : ∀ b' a, a ∈ l → P b' → P (f b' a)) : P (l.foldl f b) := by
  induction l generalizing b with
  | nil => exact h0
  | cons x t ih =>
    exact ih (f b x) (hstep b x (by simp) h0)
      (fun b' a ha hb => hstep b' a (List.mem_cons_of_mem x ha) hb)

theorem foldl_hit {α β : Type} (Q P : β → Prop) (f : β → α → β) (x : α)
    (hhit : ∀ b', Q b' → P (f b' x)) :
    ∀ (l : List α) (b : β), x ∈ l →
      (∀ b' a, a ∈ l → Q b' → Q (f b' a)) →
      (∀ b' a, a ∈ l → P b' → P (f b' a)) →
      Q b → P (l.foldl f b) := by
  intro l
  induction l with
  | nil =>
    intro b hx _ _ _
    simp at hx
  | cons y t ih =>
    intro b hx hQ hP hQb
    rcases List.mem_cons.mp hx with rfl | hxt
    · exact foldl_inv P f t (f b x) (hhit b hQb)
        (fun b' a ha hb => hP b' a (List.mem_cons_of_mem x ha) hb)
    · exact ih (f b y) hxt
        (fun b' a ha hb => hQ b' a (List.mem_cons_of_mem y ha) hb)
        (fun b' a ha hb => hP b' a (List.mem_cons_of_mem y ha) hb)
        (hQ b y (by simp) hQb)

/-! Bridge lemmas between the source's primitives and the cell-level notions. -/

theorem val_zero_elim {g : Grid} {x y : Int}
    (h : get_grid_coord_value g x y = 0) :
    0 ≤ x ∧ 0 ≤ y ∧ openCell g x.toNat y.toNat := by
  unfold get_grid_coord_value at h
  split at h
  · split at h
    · refine ⟨by omega, by omega, ?_, ?_, ?_⟩
      · omega
      · omega
      · split at h
        · simp at h
        · simp_all
    · simp at h
  · simp at h

theorem val_zero_intro {g : Grid} {i j : Nat} (h : openCell g i j) :
    get_grid_coord_value g (i : Int) (j : Int) = 0 := by
  obtain ⟨hi, hj, hc⟩ := h
  unfold get_grid_coord_value
  rw [if_pos (by omega), if_pos (by omega)]
  simp [hc]

theorem flatten_toNat (g : Grid) (x y : Int) (hx : 0 ≤ x) (hy : 0 ≤ y) :
    (grid_coords_to_adjacency_coords g x y).toNat = nodeOf g x.toNat y.toNat := by
  obtain ⟨a, rfl⟩ := Int.eq_ofNat_of_zero_le hx
  obtain ⟨b, rfl⟩ := Int.eq_ofNat_of_zero_le hy
  unfold grid_coords_to_adjacency_coords nodeOf
  norm_cast

theorem nodeOf_lt {g : Grid} {i j : Nat} (hi : i < g.R) (hj : j < g.C) :
    nodeOf g i j < g.R * g.C := by
  unfold nodeOf
  calc i * g.C + j < i * g.C + g.C := by omega
    _ = (i + 1) * g.C := by ring
    _ ≤ g.R * g.C := Nat.mul_le_mul_right _ (by omega)

theorem nodeOf_inj {g : Grid} {i j i' j' : Nat} (hj : j < g.C) (hj' : j' < g.C)
    (h : nodeOf g i j = nodeOf g i' j') : i = i' ∧ j = j' := by
  unfold nodeOf at h
  have hC : 0 < g.C := by omega
  have h1 : (i * g.C + j) / g.C = i := by
    rw [Nat.mul_comm i g.C, Nat.mul_add_div hC]
    simp [Nat.div_eq_of_lt hj]
  have h2 : (i' * g.C + j') / g.C = i' := by
    rw [Nat.mul_comm i' g.C, Nat.mul_add_div hC]
    simp [Nat.div_eq_of_lt hj']
  have h3 : (i * g.C + j) % g.C = j := by
    rw [Nat.mul_comm i g.C, Nat.mul_add_mod]
    exact Nat.mod_eq_of_lt hj
  have h4 : (i' * g.C + j') % g.C = j' := by
    rw [Nat.mul_comm i' g.C, Nat.mul_add_mod]
    exact Nat.mod_eq_of_lt hj'
  constructor
  · rw [← h1, ← h2, h]
  · rw [← h3, ← h4, h]

theorem kingStep_refl (i j : Nat) : kingStep i j i j :=
  ⟨Or.inl rfl, Or.inl rfl⟩

theorem kingStep_symm {i j i' j' : Nat} (h : kingStep i j i' j') :
    kingStep i' j' i j := by
  unfold kingStep at h ⊢
  omega

theorem cellAdj_symm {g : Grid} {a b : Nat × Nat} (h : cellAdj g a b) :
    cellAdj g b a := ⟨h.2.1, h.1, kingStep_symm h.2.2⟩

theorem AdjN_symm {g : Grid} {p q : Nat} (h : AdjN g p q) : AdjN g q p := by
  obtain ⟨a, b, hab, hp, hq⟩ := h
  exact ⟨b, a, cellAdj_symm hab, hq, hp⟩

theorem AdjN_lt {g : Grid} {p q : Nat} (h : AdjN g p q) :
    p < g.R * g.C ∧ q < g.R * g.C := by
  obtain ⟨a, b, hab, rfl, rfl⟩ := h
  exact ⟨nodeOf_lt hab.1.1 hab.1.2.1, nodeOf_lt hab.2.1.1 hab.2.1.2.1⟩

theorem AdjN_open_left {g : Grid} {p q : Nat} (h : AdjN g p q) : AdjN g p p := by
  obtain ⟨a, b, hab, rfl, _⟩ := h
  exact ⟨a, a, ⟨hab.1, hab.1, kingStep_refl a.1 a.2⟩, rfl, rfl⟩

theorem dirs_kingStep {d : Int × Int} (hd : d ∈ dirs) {i j ni nj : Nat}
    (h1 : (i : Int) + d.1 = (ni : Int)) (h2 : (j : Int) + d.2 = (nj : Int)) :
    kingStep i j ni nj := by
  unfold kingStep
  simp only [dirs, List.mem_cons, List.not_mem_nil, or_false] at hd
  rcases hd with rfl | rfl | rfl | rfl | rfl | rfl | rfl | rfl <;>
    simp only [] at h1 h2 <;> omega

theorem kingStep_dir {i j i' j' : Nat} (hk : kingStep i j i' j')
    (hne : ¬(i = i' ∧ j = j')) :
    ∃ d ∈ dirs, (i : Int) + d.1 = (i' : Int) ∧ (j : Int) + d.2 = (j' : Int) := by
  obtain ⟨h1 | h1 | h1, h2 | h2 | h2⟩ := hk
  · exact absurd ⟨h1, h2⟩ hne
  · exact ⟨(0, -1), by decide, by omega, by omega⟩
  · exact ⟨(0, 1), by decide, by omega, by omega⟩
  · exact ⟨(-1, 0), by decide, by omega, by omega⟩
  · exact ⟨(-1, -1), by decide, by omega, by omega⟩
  · exact ⟨(-1, 1), by decide, by omega, by omega⟩
  · exact ⟨(1, 0), by decide, by omega, by omega⟩
  · exact ⟨(1, -1), by decide, by omega, by omega⟩
  · exact ⟨(1, 1), by decide, by omega, by omega⟩

/-! Characterization of the built adjacency matrix. -/

theorem getE_setE_or {m : Mat} {p' q' p q : Nat} :
    getE (setE m p' q') p q = getE m p q ∨
      ((p = p' ∧ q = q') ∧ getE (setE m p' q') p q = 1) := by
  by_cases hpq : p = p' ∧ q = q'
  · rcases hpq with ⟨rfl, rfl⟩
    rcases lt_or_ge p m.length with hlt | hge
    · rcases lt_or_ge q (getL [] m p).length with hq | hq
      · refine Or.inr ⟨⟨rfl, rfl⟩, ?_⟩
        unfold getE setE
        rw [getL_setL_self _ _ _ _ hlt]
        exact getL_setL_self _ _ _ _ hq
      · refine Or.inl ?_
        unfold getE setE
        rw [getL_setL_self _ _ _ _ hlt, setL_ge _ _ _ hq]
    · refine Or.inl ?_
      unfold getE setE
      rw [setL_ge _ _ _ hge]
  · exact Or.inl (getE_setE_ne (by tauto))

theorem getE_setE_keep_one {m : Mat} {p' q' p q : Nat}
    (h : getE m p q = 1) : getE (setE m p' q') p q = 1 := by
  rcases @getE_setE_or m p' q' p q with h2 | h2
  · rw [h2]; exact h
  · exact h2.2

theorem WF_addNeighbor {g : Grid} {m : Mat} {n : Nat} (h : WF m n)
    (node1 i j : Nat) (d : Int × Int) :
    WF (addNeighbor g node1 i j d m) n := by
  unfold addNeighbor
  split
  · exact WF_setE (WF_setE h _ _) _ _
  · exact h

theorem WF_cellStep {g : Grid} {m : Mat} {n : Nat} (h : WF m n) (i j : Nat) :
    WF (cellStep g i j m) n := by
  simp only [cellStep]
  split
  · exact foldl_inv (fun m' => WF m' n) _ _ _ (WF_setE h _ _)
      (fun m' d _ hm' => WF_addNeighbor hm' _ i j d)
  · exact h

theorem WF_build (g : Grid) :
    WF (grid_to_adjacency_matrix g) (g.R * g.C) := by
  unfold grid_to_adjacency_matrix
  refine foldl_inv (fun m => WF m (g.R * g.C)) _ _ _ (WF_zerosM _) ?_
  intro m i _ hm
  exact foldl_inv (fun m' => WF m' (g.R * g.C)) _ _ _ hm
    (fun m' j _ hm' => WF_cellStep hm' i j)

/-- Every entry of a matrix is 0, or is 1 and sits at a node pair related by
the one-step relation. -/
def EntryInv (g : Grid) (m : Mat) : Prop :=
  ∀ p q, getE m p q = 0 ∨ (getE m p q = 1 ∧ AdjN g p q)

theorem EntryInv_setE {g : Grid} {m : Mat} {p' q' : Nat}
    (hAdj : AdjN g p' q') (h : EntryInv g m) : EntryInv g (setE m p' q') := by
  intro p q
  rcases @getE_setE_or m p' q' p q with h2 | h2
  · rw [h2]; exact h p q
  · obtain ⟨⟨rfl, rfl⟩, h1⟩ := h2
    exact Or.inr ⟨h1, hAdj⟩

theorem EntryInv_addNeighbor {g : Grid} {m : Mat} {i j : Nat} {d : Int × Int}
    (hd : d ∈ dirs) (hopen : openCell g i j) (h : EntryInv g m) :
    EntryInv g (addNeighbor g (nodeOf g i j) i j d m) := by
  unfold addNeighbor
  split
  case isTrue hval =>
    obtain ⟨hx, hy, hopen2⟩ := val_zero_elim hval
    rw [flatten_toNat g _ _ hx hy]
    have hking : kingStep i j ((i : Int) + d.1).toNat ((j : Int) + d.2).toNat :=
      dirs_kingStep hd (by omega) (by omega)
    have hcell : cellAdj g (i, j) (((i : Int) + d.1).toNat, ((j : Int) + d.2).toNat) :=
      ⟨hopen, hopen2, hking⟩
    have hAdj : AdjN g (nodeOf g i j)
        (nodeOf g ((i : Int) + d.1).toNat ((j : Int) + d.2).toNat) :=
      ⟨_, _, hcell, rfl, rfl⟩
    exact EntryInv_setE (AdjN_symm hAdj) (EntryInv_setE hAdj h)
  case isFalse => exact h

theorem EntryInv_cellStep {g : Grid} {m : Mat} (i j : Nat)
    (h : EntryInv g m) : EntryInv g (cellStep g i j m) := by
  simp only [cellStep]
  split
  case isTrue hval =>
    obtain ⟨_, _, hopen⟩ := val_zero_elim hval
    simp only [Int.toNat_natCast] at hopen
    rw [flatten_toNat g _ _ (by omega) (by omega)]
    simp only [Int.toNat_natCast]
    have hself : AdjN g (nodeOf g i j) (nodeOf g i j) :=
      ⟨(i, j), (i, j), ⟨hopen, hopen, kingStep_refl i j⟩, rfl, rfl⟩
    refine foldl_inv (EntryInv g) _ _ _ (EntryInv_setE hself h) ?_
    intro m' d' hd' hm'
    exact EntryInv_addNeighbor hd' hopen hm'
  case isFalse => exact h

theorem EntryInv_build (g : Grid) : EntryInv g (grid_to_adjacency_matrix g) := by
  unfold grid_to_adjacency_matrix
  refine foldl_inv (EntryInv g) _ _ _ (fun p q => Or.inl (getE_zerosM _ p q)) ?_
  intro m i _ hm
  refine foldl_inv (EntryInv g) _ _ _ hm ?_
  intro m' j _ hm'
  exact EntryInv_cellStep i j hm'

theorem keep_one_addNeighbor {g : Grid} {m : Mat} {n node1 i j : Nat}
    {d : Int × Int} {p q : Nat} (h : getE m p q = 1 ∧ WF m n) :
    getE (addNeighbor g node1 i j d m) p q = 1 ∧
      WF (addNeighbor g node1 i j d m) n := by
  unfold addNeighbor
  split
  · exact ⟨getE_setE_keep_one (getE_setE_keep_one h.1), WF_setE (WF_setE h.2 _ _) _ _⟩
  · exact h

theorem keep_one_cellStep {g : Grid} {m : Mat} {n i j p q : Nat}
    (h : getE m p q = 1 ∧ WF m n) :
    getE (cellStep g i j m) p q = 1 ∧ WF (cellStep g i j m) n := by
  simp only [cellStep]
  split
  · refine foldl_inv (fun m' => getE m' p q = 1 ∧ WF m' n) _ _ _
      ⟨getE_setE_keep_one h.1, WF_setE h.2 _ _⟩ ?_
    intro m' d _ hm'
    exact keep_one_addNeighbor hm'
  · exact h

theorem cellStep_hit {g : Grid} {m : Mat} (hWF : WF m (g.R * g.C))
    {a b : Nat × Nat} (hoa : openCell g a.1 a.2) (hob : openCell g b.1 b.2)
    (hking : kingStep a.1 a.2 b.1 b.2) :
    getE (cellStep g a.1 a.2 m) (nodeOf g a.1 a.2) (nodeOf g b.1 b.2) = 1 ∧
      WF (cellStep g a.1 a.2 m) (g.R * g.C) := by
  have hpa : nodeOf g a.1 a.2 < g.R * g.C := nodeOf_lt hoa.1 hoa.2.1
  have hpb : nodeOf g b.1 b.2 < g.R * g.C := nodeOf_lt hob.1 hob.2.1
  simp only [cellStep]
  rw [if_pos (val_zero_intro hoa)]
  rw [flatten_toNat g _ _ (Int.natCast_nonneg _) (Int.natCast_nonneg _)]
  simp only [Int.toNat_natCast]
  by_cases heq : a.1 = b.1 ∧ a.2 = b.2
  · have hqp : nodeOf g b.1 b.2 = nodeOf g a.1 a.2 := by rw [← heq.1, ← heq.2]
    rw [hqp]
    refine foldl_inv
      (fun m' => getE m' (nodeOf g a.1 a.2) (nodeOf g a.1 a.2) = 1 ∧ WF m' (g.R * g.C))
      _ _ _ ⟨getE_setE_self hWF hpa hpa, WF_setE hWF _ _⟩ ?_
    intro m' d _ hm'
    exact keep_one_addNeighbor hm'
  · obtain ⟨d, hd, hd1, hd2⟩ := kingStep_dir hking heq
    refine foldl_hit (fun m' => WF m' (g.R * g.C))
      (fun m' => getE m' (nodeOf g a.1 a.2) (nodeOf g b.1 b.2) = 1 ∧ WF m' (g.R * g.C))
      _ d ?_ dirs _ hd
      (fun m' d' _ hm' => WF_addNeighbor hm' _ _ _ _)
      (fun m' d' _ hm' => keep_one_addNeighbor hm')
      (WF_setE hWF _ _)
    intro m' hm'
    unfold addNeighbor
    rw [hd1, hd2]
    rw [if_pos (val_zero_intro hob)]
    rw [flatten_toNat g _ _ (Int.natCast_nonneg _) (Int.natCast_nonneg _)]
    simp only [Int.toNat_natCast]
    exact ⟨getE_setE_keep_one (getE_setE_self hm' hpa hpb),
      WF_setE (WF_setE hm' _ _) _ _⟩

theorem build_entry_hit {g : Grid} {p q : Nat} (h : AdjN g p q) :
    getE (grid_to_adjacency_matrix g) p q = 1 := by
  obtain ⟨a, b, ⟨hoa, hob, hking⟩, rfl, rfl⟩ := h
  have hinner : ∀ m, WF m (g.R * g.C) →
      getE ((List.range g.C).foldl (fun m' j => cellStep g a.1 j m') m)
          (nodeOf g a.1 a.2) (nodeOf g b.1 b.2) = 1 ∧
        WF ((List.range g.C).foldl (fun m' j => cellStep g a.1 j m') m) (g.R * g.C) := by
    intro m hm
    exact foldl_hit (fun m' => WF m' (g.R * g.C))
      (fun m' => getE m' (nodeOf g a.1 a.2) (nodeOf g b.1 b.2) = 1 ∧ WF m' (g.R * g.C))
      (fun m' j => cellStep g a.1 j m') a.2
      (fun m' hm' => cellStep_hit hm' hoa hob hking)
      (List.range g.C) m (List.mem_range.mpr hoa.2.1)
      (fun m' j _ hm' => WF_cellStep hm' a.1 j)
      (fun m' j _ hm' => keep_one_cellStep hm') hm
  unfold grid_to_adjacency_matrix
  have hmain := foldl_hit (fun m => WF m (g.R * g.C))
    (fun m => getE m (nodeOf g a.1 a.2) (nodeOf g b.1 b.2) = 1 ∧ WF m (g.R * g.C))
    (fun m i => (List.range g.C).foldl (fun m' j => cellStep g i j m') m)
    a.1 hinner (List.range g.R) (zerosM (g.R * g.C)) (List.mem_range.mpr hoa.1)
    (fun m i _ hm => foldl_inv (fun m' => WF m' (g.R * g.C)) _ _ _ hm
      (fun m' j _ hm' => WF_cellStep hm' i j))
    (fun m i _ hm => foldl_inv
      (fun m' => getE m' (nodeOf g a.1 a.2) (nodeOf g b.1 b.2) = 1 ∧ WF m' (g.R * g.C))
      _ _ _ hm (fun m' j _ hm' => keep_one_cellStep hm'))
    (WF_zerosM _)
  exact hmain.1

/-- The built adjacency matrix has a nonzero entry exactly at the one-step
related node pairs. -/
theorem build_entry_iff (g : Grid) (p q : Nat) :
    getE (grid_to_adjacency_matrix g) p q ≠ 0 ↔ AdjN g p q := by
  constructor
  · intro h
    rcases EntryInv_build g p q with h0 | h1
    · exact absurd h0 h
    · exact h1.2
  · intro h
    rw [build_entry_hit h]
    simp

/-! Walks in the node step relation. -/

theorem walkN_append {g : Grid} : ∀ {n m p r q : Nat},
    WalkN g n p r → WalkN g m r q → WalkN g (n + m) p q := by
  intro n
  induction n with
  | zero =>
    intro m p r q h1 h2
    rw [Nat.zero_add]
    exact h1 ▸ h2
  | succ k ih =>
    intro m p r q h1 h2
    obtain ⟨s, hs, hw⟩ := h1
    rw [Nat.succ_add]
    exact ⟨s, hs, ih hw h2⟩

theorem walkN_reverse {g : Grid} : ∀ {n p q : Nat},
    WalkN g n p q → WalkN g n q p := by
  intro n
  induction n with
  | zero => intro p q h; exact h.symm
  | succ k ih =>
    intro p q h
    obtain ⟨r, hr, hw⟩ := h
    have h1 : WalkN g 1 r p := ⟨p, AdjN_symm hr, rfl⟩
    exact walkN_append (ih hw) h1

theorem walkN_split {g : Grid} : ∀ (n m p q : Nat),
    WalkN g (n + m) p q → ∃ r, WalkN g n p r ∧ WalkN g m r q := by
  intro n
  induction n with
  | zero =>
    intro m p q h
    rw [Nat.zero_add] at h
    exact ⟨p, rfl, h⟩
  | succ k ih =>
    intro m p q h
    rw [Nat.succ_add] at h
    obtain ⟨s, hs, hw⟩ := h
    obtain ⟨r, h1, h2⟩ := ih m s q hw
    exact ⟨r, ⟨s, hs, h1⟩, h2⟩

theorem walkN_lt {g : Grid} : ∀ {n p q : Nat}, WalkN g (n + 1) p q →
    p < g.R * g.C ∧ q < g.R * g.C := by
  intro n
  induction n with
  | zero =>
    intro p q h
    obtain ⟨r, hr, hw⟩ := h
    obtain ⟨h1, h2⟩ := AdjN_lt hr
    exact ⟨h1, hw ▸ h2⟩
  | succ k ih =>
    intro p q h
    obtain ⟨r, hr, hw⟩ := h
    exact ⟨(AdjN_lt hr).1, (ih hw).2⟩

theorem walkN_self {g : Grid} {n p q : Nat} (h : WalkN g (n + 1) p q) :
    AdjN g p p := by
  obtain ⟨r, hr, _⟩ := h
  exact AdjN_open_left hr

theorem walkN_pad {g : Grid} {n p q : Nat} (h : WalkN g (n + 1) p q) :
    ∀ k, WalkN g (n + 1 + k) p q := by
  intro k
  induction k with
  | zero => exact h
  | succ k2 ih => exact ⟨p, walkN_self h, ih⟩

theorem walkN_transGen {g : Grid} : ∀ {n p q : Nat}, WalkN g (n + 1) p q →
    Relation.TransGen (AdjN g) p q := by
  intro n
  induction n with
  | zero =>
    intro p q h
    obtain ⟨r, hr, hw⟩ := h
    exact hw ▸ Relation.TransGen.single hr
  | succ k ih =>
    intro p q h
    obtain ⟨r, hr, hw⟩ := h
    exact Relation.TransGen.head hr (ih hw)

theorem transGen_self_left {g : Grid} {p q : Nat}
    (h : Relation.TransGen (AdjN g) p q) : AdjN g p p := by
  induction h with
  | single h1 => exact AdjN_open_left h1
  | tail _ _ ih => exact ih

/-! The simple graph on node indices, used to extract a short walk from an
arbitrary chain of steps. -/

/-- The node step relation without self-loops, as a simple graph on `Fin N`. -/
def specGraph (g : Grid) : SimpleGraph (Fin (g.R * g.C)) where
  Adj a b := a ≠ b ∧ AdjN g a.val b.val
  symm := fun _ _ h => ⟨Ne.symm h.1, AdjN_symm h.2⟩
  loopless := fun _ h => h.1 rfl

theorem transGen_to_gwalk {g : Grid} {p q : Nat}
    (h : Relation.TransGen (AdjN g) p q) :
    ∃ (hp : p < g.R * g.C) (hq : q < g.R * g.C),
      Nonempty ((specGraph g).Walk ⟨p, hp⟩ ⟨q, hq⟩) := by
  induction h with
  | @single b h1 =>
    obtain ⟨hp, hq⟩ := AdjN_lt h1
    refine ⟨hp, hq, ?_⟩
    by_cases hpq : p = b
    · exact ⟨(SimpleGraph.Walk.nil).copy rfl (Fin.ext hpq)⟩
    · exact ⟨SimpleGraph.Walk.cons ⟨fun hc => hpq (congrArg Fin.val hc), h1⟩
        SimpleGraph.Walk.nil⟩
  | @tail b c h1 h2 ih =>
    obtain ⟨hp, hb, ⟨w⟩⟩ := ih
    have hc : c < g.R * g.C := (AdjN_lt h2).2
    refine ⟨hp, hc, ?_⟩
    by_cases hbc : b = c
    · exact ⟨w.copy rfl (Fin.ext hbc)⟩
    · exact ⟨w.concat ⟨fun hcc => hbc (congrArg Fin.val hcc), h2⟩⟩

theorem gwalk_to_walkN {g : Grid} : ∀ {u v : Fin (g.R * g.C)}
    (w : (specGraph g).Walk u v), WalkN g w.length u.val v.val := by
  intro u v w
  induction w with
  | nil => rfl
  | cons h w2 ih =>
    rw [SimpleGraph.Walk.length_cons]
    exact ⟨_, h.2, ih⟩

theorem transGen_bounded_walk {g : Grid} {p q : Nat}
    (h : Relation.TransGen (AdjN g) p q) :
    ∃ m, 1 ≤ m ∧ m ≤ g.R * g.C ∧ WalkN g m p q := by
  obtain ⟨hp, hq, ⟨w⟩⟩ := transGen_to_gwalk h
  have hpath := SimpleGraph.Walk.bypass_isPath w
  have hlen : w.bypass.length < Fintype.card (Fin (g.R * g.C)) := hpath.length_lt
  rw [Fintype.card_fin] at hlen
  have hwN := gwalk_to_walkN w.bypass
  rcases Nat.eq_zero_or_pos w.bypass.length with h0 | hpos
  · rw [h0] at hwN
    have hpq : p = q := hwN
    subst hpq
    exact ⟨1, Nat.le_refl 1, by omega, ⟨p, transGen_self_left h, rfl⟩⟩
  · exact ⟨w.bypass.length, hpos, by omega, hwN⟩

/-! The accessibility iteration. -/

theorem WF_matmulT {T : Mat} {n : Nat} (h : WF T n) : WF (matmulT T) n := by
  constructor
  · rw [matmulT, List.length_map, h.1]
  · intro row hrow
    rw [matmulT] at hrow
    obtain ⟨row0, _, rfl⟩ := List.mem_map.mp hrow
    rw [List.length_map, h.1]

theorem WF_boolMat {T : Mat} {n : Nat} (h : WF T n) : WF (boolMat T) n := by
  constructor
  · rw [boolMat, List.length_map, h.1]
  · intro row hrow
    rw [boolMat] at hrow
    obtain ⟨row0, hmem, rfl⟩ := List.mem_map.mp hrow
    rw [List.length_map]
    exact h.2 _ hmem

theorem getE_matmulT {T : Mat} {n : Nat} (h : WF T n) {p q : Nat}
    (hp : p < n) (hq : q < n) :
    getE (matmulT T) p q = dot (getL [] T p) (getL [] T q) := by
  unfold getE matmulT
  rw [getL_map [] [] _ _ _ (by rw [h.1]; exact hp)]
  rw [getL_map 0 [] _ _ _ (by rw [h.1]; exact hq)]

theorem dot_ne_zero_iff : ∀ (u v : List Nat),
    dot u v ≠ 0 ↔ ∃ r, getL 0 u r ≠ 0 ∧ getL 0 v r ≠ 0 := by
  intro u
  induction u with
  | nil =>
    intro v
    simp [dot, getL]
  | cons a u2 ih =>
    intro v
    cases v with
    | nil => simp [dot, getL]
    | cons b v2 =>
      constructor
      · intro h
        have h2 : a * b ≠ 0 ∨ dot u2 v2 ≠ 0 := by
          by_contra hc
          push_neg at hc
          rw [dot] at h
          omega
        rcases h2 with h2 | h2
        · obtain ⟨ha, hb⟩ := Nat.mul_ne_zero_iff.mp h2
          exact ⟨0, by simpa [getL] using ha, by simpa [getL] using hb⟩
        · obtain ⟨r, h3, h4⟩ := (ih v2).mp h2
          exact ⟨r + 1, h3, h4⟩
      · rintro ⟨r, h1, h2⟩
        cases r with
        | zero =>
          rw [getL] at h1 h2
          rw [dot]
          have : a * b ≠ 0 := Nat.mul_ne_zero h1 h2
          omega
        | succ r2 =>
          rw [getL] at h1 h2
          have := (ih v2).mpr ⟨r2, h1, h2⟩
          rw [dot]
          omega

theorem getE_boolMat_iff {T : Mat} {p q : Nat} :
    getE (boolMat T) p q ≠ 0 ↔ getE T p q ≠ 0 := by
  unfold getE boolMat
  rcases lt_or_ge p T.length with hp | hp
  · rw [getL_map [] [] _ _ _ hp]
    rcases lt_or_ge q (getL [] T p).length with hq | hq
    · rw [getL_map 0 0 _ _ _ hq]
      split <;> omega
    · rw [getL_ge _ _ _ (by rw [List.length_map]; exact hq), getL_ge _ _ _ hq]
  · have e1 : getL ([] : List Nat) (List.map (List.map fun e => if 0 < e then 1 else e) T) p = [] :=
      getL_ge _ _ _ (by rw [List.length_map]; exact hp)
    have e2 : getL ([] : List Nat) T p = [] := getL_ge _ _ _ hp
    rw [e1, e2]

theorem stepB_entry_iff {T : Mat} {n : Nat} (h : WF T n) (p q : Nat) :
    getE (stepB T) p q ≠ 0 ↔ ∃ r, getE T p r ≠ 0 ∧ getE T q r ≠ 0 := by
  unfold stepB
  rw [getE_boolMat_iff]
  rcases lt_or_ge p n with hp | hp
  · rcases lt_or_ge q n with hq | hq
    · rw [getE_matmulT h hp hq]
      exact dot_ne_zero_iff _ _
    · rw [getE_oob_col (WF_matmulT h) p hq]
      simp only [ne_eq, not_true_eq_false, false_iff, not_exists, not_and]
      intro r h1 h2
      exact h2 (getE_oob_row h hq r)
  · rw [getE_oob_row (WF_matmulT h) hp q]
    simp only [ne_eq, not_true_eq_false, false_iff, not_exists, not_and]
    intro r h1
    exact absurd (getE_oob_row h hp r) h1

theorem WF_iter (g : Grid) (k : Nat) :
    WF (stepB^[k] (grid_to_adjacency_matrix g)) (g.R * g.C) := by
  induction k with
  | zero => exact WF_build g
  | succ k2 ih =>
    rw [Function.iterate_succ_apply']
    exact WF_boolMat (WF_matmulT ih)

theorem iter_entry_iff (g : Grid) : ∀ (k p q : Nat),
    getE (stepB^[k] (grid_to_adjacency_matrix g)) p q ≠ 0 ↔
      WalkN g (2 ^ k) p q := by
  intro k
  induction k with
  | zero =>
    intro p q
    rw [Function.iterate_zero_apply, pow_zero, build_entry_iff]
    constructor
    · intro h
      exact ⟨q, h, rfl⟩
    · rintro ⟨r, h1, h2⟩
      have : r = q := h2
      exact this ▸ h1
  | succ k2 ih =>
    intro p q
    rw [Function.iterate_succ_apply', stepB_entry_iff (WF_iter g k2)]
    have hpow : 2 ^ (k2 + 1) = 2 ^ k2 + 2 ^ k2 := by
      rw [pow_succ, Nat.mul_two]
    rw [hpow]
    constructor
    · rintro ⟨r, h1, h2⟩
      exact walkN_append ((ih p r).mp h1) (walkN_reverse ((ih q r).mp h2))
    · intro hw
      obtain ⟨r, w1, w2⟩ := walkN_split _ _ _ _ hw
      exact ⟨r, (ih p r).mpr w1, (ih q r).mpr (walkN_reverse w2)⟩

/-- After R*C squaring iterations the matrix entry is nonzero exactly when the
two nodes are joined by a chain of one-step relations. -/
theorem acc_entry_iff_transGen (g : Grid) (p q : Nat) :
    getE (stepB^[g.R * g.C] (grid_to_adjacency_matrix g)) p q ≠ 0 ↔
      Relation.TransGen (AdjN g) p q := by
  rw [iter_entry_iff]
  constructor
  · intro h
    have h1 : 1 ≤ 2 ^ (g.R * g.C) := Nat.one_le_two_pow
    have h2 : 2 ^ (g.R * g.C) = (2 ^ (g.R * g.C) - 1) + 1 := by omega
    rw [h2] at h
    exact walkN_transGen h
  · intro h
    obtain ⟨m, hm1, hmN, hw⟩ := transGen_bounded_walk h
    have hlt : g.R * g.C < 2 ^ (g.R * g.C) := Nat.lt_two_pow _
    obtain ⟨m0, rfl⟩ : ∃ m0, m = m0 + 1 := ⟨m - 1, by omega⟩
    have hpad := walkN_pad hw (2 ^ (g.R * g.C) - (m0 + 1))
    have harith : m0 + 1 + (2 ^ (g.R * g.C) - (m0 + 1)) = 2 ^ (g.R * g.C) := by
      omega
    rwa [harith] at hpad

/-! Transport between cell-level connectivity and node-level chains. -/

theorem cellAdj_to_AdjN {g : Grid} {a b : Nat × Nat} (h : cellAdj g a b) :
    AdjN g (nodeOf g a.1 a.2) (nodeOf g b.1 b.2) := ⟨a, b, h, rfl, rfl⟩

theorem transGen_node_of_connected {g : Grid} {a b : Nat × Nat}
    (h : Connected g a b) :
    Relation.TransGen (AdjN g) (nodeOf g a.1 a.2) (nodeOf g b.1 b.2) := by
  induction h with
  | single h1 => exact Relation.TransGen.single (cellAdj_to_AdjN h1)
  | tail _ h2 ih => exact Relation.TransGen.tail ih (cellAdj_to_AdjN h2)

theorem connected_of_transGen_node {g : Grid} {a : Nat × Nat} (ha2 : a.2 < g.C) :
    ∀ {x : Nat}, Relation.TransGen (AdjN g) (nodeOf g a.1 a.2) x →
      ∀ b : Nat × Nat, b.2 < g.C → x = nodeOf g b.1 b.2 → Connected g a b := by
  intro x h
  induction h with
  | @single y h1 =>
    intro b hb2 hy
    obtain ⟨u, v, huv, h2, h3⟩ := h1
    obtain ⟨hau1, hau2⟩ := nodeOf_inj ha2 huv.1.2.1 h2
    obtain ⟨hbv1, hbv2⟩ := nodeOf_inj hb2 huv.2.1.2.1 (hy.symm.trans h3).symm.symm
    have hau : a = u := Prod.ext_iff.mpr ⟨hau1, hau2⟩
    have hbv : b = v := Prod.ext_iff.mpr ⟨hbv1, hbv2⟩
    refine Relation.TransGen.single ?_
    rw [hau, hbv]
    exact huv
  | @tail y z h1 h2 ih =>
    intro b hb2 hz
    obtain ⟨u, v, huv, h3, h4⟩ := h2
    have hconn : Connected g a u := ih u huv.1.2.1 h3
    obtain ⟨hbv1, hbv2⟩ := nodeOf_inj hb2 huv.2.1.2.1 (hz.symm.trans h4).symm.symm
    have hbv : b = v := Prod.ext_iff.mpr ⟨hbv1, hbv2⟩
    refine Relation.TransGen.tail hconn ?_
    rw [hbv]
    exact huv

theorem transGen_node_iff {g : Grid} (aX aY bX bY : Nat)
    (ha : aY < g.C) (hb : bY < g.C) :
    Relation.TransGen (AdjN g) (nodeOf g aX aY) (nodeOf g bX bY) ↔
      Connected g (aX, aY) (bX, bY) :=
  ⟨fun h => connected_of_transGen_node (a := (aX, aY)) ha h (bX, bY) hb rfl,
    transGen_node_of_connected⟩

/-! Evaluating the query path on in-bounds coordinates. -/

theorem init_accessibility (g : Grid) :
    (MazeSolver.init g).accessibility_matrix =
      stepB^[g.R * g.C] (grid_to_adjacency_matrix g) := rfl

theorem init_grid (g : Grid) : (MazeSolver.init g).grid = g := rfl

theorem is_connected_eq (s : MazeSolver) (g' : Grid) (aX aY bX bY : Int) :
    s.is_connected g' aX aY bX bY =
      (mgetOpt s.accessibility_matrix
        (grid_coords_to_adjacency_coords s.grid aX aY)
        (grid_coords_to_adjacency_coords s.grid bX bY)).map
          (fun v => decide (0 < v)) := rfl

theorem npIndex_nat {n x : Nat} (h : x < n) : npIndex n (x : Int) = some x := by
  unfold npIndex
  rw [if_pos ⟨Int.natCast_nonneg x, by exact_mod_cast h⟩]
  simp

theorem flatten_nat_eq (g : Grid) (i j : Nat) :
    grid_coords_to_adjacency_coords g (i : Int) (j : Int) =
      ((nodeOf g i j : Nat) : Int) := by
  unfold grid_coords_to_adjacency_coords nodeOf
  push_cast
  ring

theorem mget_inbounds {m : Mat} {n : Nat} (hWF : WF m n) {p q : Nat}
    (hp : p < n) (hq : q < n) :
    mgetOpt m (p : Int) (q : Int) = some (getE m p q) := by
  have h1 : p < m.length := by rw [hWF.1]; exact hp
  have h2 : q < (getL [] m p).length := by rw [WF_row_length hWF p hp]; exact hq
  simp [mgetOpt, npIndex_nat h1, npIndex_nat h2, getE]

theorem is_connected_inbounds (g g' : Grid) {aX aY bX bY : Nat}
    (ha1 : aX < g.R) (ha2 : aY < g.C) (hb1 : bX < g.R) (hb2 : bY < g.C) :
    (MazeSolver.init g).is_connected g' (aX : Int) (aY : Int) (bX : Int) (bY : Int) =
      some (decide (0 < getE (stepB^[g.R * g.C] (grid_to_adjacency_matrix g))
        (nodeOf g aX aY) (nodeOf g bX bY))) := by
  rw [is_connected_eq, init_accessibility, init_grid]
  rw [flatten_nat_eq g aX aY, flatten_nat_eq g bX bY]
  rw [mget_inbounds (WF_iter g (g.R * g.C)) (nodeOf_lt ha1 ha2) (nodeOf_lt hb1 hb2)]
  rfl

/-- Core query characterization: on in-bounds coordinates the query evaluates
to `some` of exactly the cell-level connectivity of the construction grid. -/
theorem is_connected_iff_connected (g g' : Grid) {aX aY bX bY : Nat}
    (ha1 : aX < g.R) (ha2 : aY < g.C) (hb1 : bX < g.R) (hb2 : bY < g.C) :
    ((MazeSolver.init g).is_connected g' (aX : Int) (aY : Int) (bX : Int) (bY : Int)
        = some true ↔ Connected g (aX, aY) (bX, bY)) := by
  rw [is_connected_inbounds g g' ha1 ha2 hb1 hb2]
  rw [Option.some_inj, decide_eq_true_iff, Nat.pos_iff_ne_zero]
  rw [acc_entry_iff_transGen]
  exact transGen_node_iff aX aY bX bY ha2 hb2

/-! Symmetry of the produced matrices. -/

theorem dot_comm : ∀ (u v : List Nat), dot u v = dot v u := by
  intro u
  induction u with
  | nil =>
    intro v
    cases v <;> rfl
  | cons a u2 ih =>
    intro v
    cases v with
    | nil => rfl
    | cons b v2 =>
      rw [dot, dot, ih, Nat.mul_comm]

theorem getE_boolMat {T : Mat} {p q : Nat} :
    getE (boolMat T) p q = if 0 < getE T p q then 1 else getE T p q := by
  unfold getE boolMat
  rcases lt_or_ge p T.length with hp | hp
  · rw [getL_map [] [] _ _ _ hp]
    rcases lt_or_ge q (getL [] T p).length with hq | hq
    · rw [getL_map 0 0 _ _ _ hq]
    · have e1 : getL 0 (List.map (fun e => if 0 < e then 1 else e) (getL [] T p)) q = 0 :=
        getL_ge _ _ _ (by rw [List.length_map]; exact hq)
      have e2 : getL 0 (getL [] T p) q = 0 := getL_ge _ _ _ hq
      rw [e1, e2]
      simp
  · have e1 : getL ([] : List Nat) (List.map (List.map fun e => if 0 < e then 1 else e) T) p = [] :=
      getL_ge _ _ _ (by rw [List.length_map]; exact hp)
    have e2 : getL ([] : List Nat) T p = [] := getL_ge _ _ _ hp
    rw [e1, e2]
    simp [getL]

theorem matmulT_symm {T : Mat} {n : Nat} (h : WF T n) (p q : Nat) :
    getE (matmulT T) p q = getE (matmulT T) q p := by
  rcases lt_or_ge p n with hp | hp
  · rcases lt_or_ge q n with hq | hq
    · rw [getE_matmulT h hp hq, getE_matmulT h hq hp, dot_comm]
    · rw [getE_oob_col (WF_matmulT h) p hq, getE_oob_row (WF_matmulT h) hq p]
  · rw [getE_oob_row (WF_matmulT h) hp q, getE_oob_col (WF_matmulT h) q hp]

theorem stepB_symm {T : Mat} {n : Nat} (h : WF T n) (p q : Nat) :
    getE (stepB T) p q = getE (stepB T) q p := by
  unfold stepB
  rw [getE_boolMat, getE_boolMat, matmulT_symm h p q]

theorem acc_symm (g : Grid) (hN : 1 ≤ g.R * g.C) (p q : Nat) :
    getE (stepB^[g.R * g.C] (grid_to_adjacency_matrix g)) p q =
      getE (stepB^[g.R * g.C] (grid_to_adjacency_matrix g)) q p := by
  obtain ⟨k, hk⟩ : ∃ k, g.R * g.C = k + 1 := ⟨g.R * g.C - 1, by omega⟩
  rw [hk, Function.iterate_succ_apply']
  exact stepB_symm (WF_iter g k) p q

theorem adjacency_symm (g : Grid) (p q : Nat) :
    getE (grid_to_adjacency_matrix g) p q = getE (grid_to_adjacency_matrix g) q p := by
  rcases EntryInv_build g p q with h | ⟨h1, hAdj⟩
  · rcases EntryInv_build g q p with h' | ⟨_, hAdj'⟩
    · rw [h, h']
    · exact absurd (build_entry_hit (AdjN_symm hAdj')) (by rw [h]; simp)
  · rw [h1, build_entry_hit (AdjN_symm hAdj)]

/-! Facts about cell-level connectivity used by the claims. -/

theorem connected_self_of_open {g : Grid} {i j : Nat} (h : openCell g i j) :
    Connected g (i, j) (i, j) :=
  Relation.TransGen.single ⟨h, h, kingStep_refl i j⟩

theorem not_connected_of_wall {g : Grid} {i j : Nat} (h : g.cell i j = true)
    {b : Nat × Nat} : ¬ Connected g (i, j) b := by
  intro hc
  induction hc with
  | single h1 =>
    have := h1.1.2.2
    simp only [] at this
    rw [h] at this
    simp at this
  | tail _ _ ih => exact ih

theorem connected_mono {g1 g2 : Grid}
    (hstep : ∀ a b, cellAdj g1 a b → cellAdj g2 a b) {a b : Nat × Nat}
    (h : Connected g1 a b) : Connected g2 a b :=
  Relation.TransGen.mono hstep h

/-! The claims. -/

/-- C1: for every grid and in-bounds coordinates, after construction
is_connected returns true exactly when a path of 8-connected OPEN cells joins
the two cells (a cell trivially reaching itself when OPEN); i.e. the
accessibility matrix obtained by R*C iterations of T := boolean(T * Tt)
starting from the adjacency matrix realizes the transitive closure of the
adjacency relation. -/
theorem C1_query_iff_path (g : Grid) (aX aY bX bY : Nat)
    (ha1 : aX < g.R) (ha2 : aY < g.C) (hb1 : bX < g.R) (hb2 : bY < g.C) :
    ((MazeSolver.init g).is_connected g (aX : Int) (aY : Int) (bX : Int) (bY : Int)
      = some true ↔ Connected g (aX, aY) (bX, bY)) :=
  is_connected_iff_connected g g ha1 ha2 hb1 hb2

theorem C1_query_iff_path_witness :
    ((0 : Nat) < grid11.R ∧ (0 : Nat) < grid11.C) ∧
    ((MazeSolver.init grid11).is_connected grid11 ((0 : Nat) : Int) ((0 : Nat) : Int)
        ((0 : Nat) : Int) ((0 : Nat) : Int) = some true ↔
      Connected grid11 (0, 0) (0, 0)) :=
  ⟨⟨by decide, by decide⟩,
    C1_query_iff_path grid11 0 0 0 0 (by decide) (by decide) (by decide) (by decide)⟩

/-- C2: the claim says out-of-bounds queries return false without error; the
code instead applies no bounds check: on grid1 the query (-1,0,0,0) wraps to
the last row's node (2,0) and returns true, and the query (3,0,0,0) raises an
IndexError (modelled as none). -/
theorem C2_oob_query_not_false :
    (MazeSolver.init grid1).is_connected grid1 (-1) 0 0 0 = some true ∧
    (MazeSolver.init grid1).is_connected grid1 3 0 0 0 = none := by
  constructor
  · decide
  · decide

/-- C3: the claim says construction on a grid with zero rows or zero columns
fails with an explicit error; the code performs no dimension check and
silently constructs an engine with empty (0 x 0) matrices. -/
theorem C3_zero_grid_constructs_silently :
    (MazeSolver.init grid00).adjacency_matrix = [] ∧
    (MazeSolver.init grid00).accessibility_matrix = [] :=
  ⟨rfl, rfl⟩

/-- C4: the built adjacency matrix is symmetric, and every WALL cell is fully
isolated: its whole row and column, the diagonal entry included, are zero. -/
theorem C4_adjacency_symmetric_wall_isolated (g : Grid) :
    (∀ p q, getE (grid_to_adjacency_matrix g) p q =
      getE (grid_to_adjacency_matrix g) q p) ∧
    (∀ i j, i < g.R → j < g.C → g.cell i j = true → ∀ q,
      getE (grid_to_adjacency_matrix g) (nodeOf g i j) q = 0 ∧
      getE (grid_to_adjacency_matrix g) q (nodeOf g i j) = 0) := by
  refine ⟨adjacency_symm g, ?_⟩
  intro i j hi hj hwall q
  constructor
  · by_contra h
    obtain ⟨u, v, huv, h2, h3⟩ := (build_entry_iff g _ q).mp h
    obtain ⟨e1, e2⟩ := nodeOf_inj hj huv.1.2.1 h2
    have hopen := huv.1.2.2
    rw [← e1, ← e2, hwall] at hopen
    simp at hopen
  · by_contra h
    obtain ⟨u, v, huv, h2, h3⟩ := (build_entry_iff g q _).mp h
    obtain ⟨e1, e2⟩ := nodeOf_inj hj huv.2.1.2.1 h3
    have hopen := huv.2.1.2.2
    rw [← e1, ← e2, hwall] at hopen
    simp at hopen

theorem C4_adjacency_symmetric_wall_isolated_witness :
    ((0 : Nat) < grid1.R ∧ (1 : Nat) < grid1.C ∧ grid1.cell 0 1 = true) ∧
    (getE (grid_to_adjacency_matrix grid1) (nodeOf grid1 0 1) 5 = 0 ∧
     getE (grid_to_adjacency_matrix grid1) 5 (nodeOf grid1 0 1) = 0) :=
  ⟨⟨by decide, by decide, by decide⟩,
    (C4_adjacency_symmetric_wall_isolated grid1).2 0 1 (by decide) (by decide)
      (by decide) 5⟩

/-- C5: if grid2 equals grid1 except that exactly one WALL cell of grid1 is
OPEN in grid2, then on in-bounds coordinates any pair connected under the
engine built from grid1 stays connected under the engine built from grid2:
removing a wall never disconnects. -/
theorem C5_wall_removal_monotone (g1 g2 : Grid) (wi wj : Nat)
    (hR : g2.R = g1.R) (hC : g2.C = g1.C)
    (hw1 : g1.cell wi wj = true) (hw2 : g2.cell wi wj = false)
    (hother : ∀ i, i < g1.R → ∀ j, j < g1.C → ¬(i = wi ∧ j = wj) →
      g2.cell i j = g1.cell i j)
    (aX aY bX bY : Nat)
    (ha1 : aX < g1.R) (ha2 : aY < g1.C) (hb1 : bX < g1.R) (hb2 : bY < g1.C) :
    (MazeSolver.init g1).is_connected g1 (aX : Int) (aY : Int) (bX : Int) (bY : Int)
        = some true →
    (MazeSolver.init g2).is_connected g2 (aX : Int) (aY : Int) (bX : Int) (bY : Int)
        = some true := by
  intro h
  have hc1 := (is_connected_iff_connected g1 g1 ha1 ha2 hb1 hb2).mp h
  refine (is_connected_iff_connected g2 g2 (by omega) (by omega) (by omega)
    (by omega)).mpr ?_
  refine connected_mono ?_ hc1
  intro a b hab
  obtain ⟨⟨hoa1, hoa2, hoa3⟩, ⟨hob1, hob2, hob3⟩, hk⟩ := hab
  have hopen : ∀ i j : Nat, i < g1.R → j < g1.C → g1.cell i j = false →
      g2.cell i j = false := by
    intro i j hi hj hc
    by_cases hw : i = wi ∧ j = wj
    · rw [hw.1, hw.2, hw1] at hc
      simp at hc
    · rw [hother i hi j hj hw]
      exact hc
  exact ⟨⟨by omega, by omega, hopen _ _ hoa1 hoa2 hoa3⟩,
    ⟨by omega, by omega, hopen _ _ hob1 hob2 hob3⟩, hk⟩

theorem C5_wall_removal_monotone_witness :
    (grid2.R = grid1.R ∧ grid2.C = grid1.C ∧ grid1.cell 2 1 = true ∧
      grid2.cell 2 1 = false ∧
      (∀ i, i < grid1.R → ∀ j, j < grid1.C → ¬(i = 2 ∧ j = 1) →
        grid2.cell i j = grid1.cell i j)) ∧
    ((MazeSolver.init grid1).is_connected grid1 ((0 : Nat) : Int) ((0 : Nat) : Int)
        ((2 : Nat) : Int) ((0 : Nat) : Int) = some true →
      (MazeSolver.init grid2).is_connected grid2 ((0 : Nat) : Int) ((0 : Nat) : Int)
        ((2 : Nat) : Int) ((0 : Nat) : Int) = some true) :=
  ⟨⟨rfl, rfl, by decide, by decide, by decide⟩,
    C5_wall_removal_monotone grid1 grid2 2 1 rfl rfl (by decide) (by decide)
      (by decide) 0 0 2 0 (by decide) (by decide) (by decide) (by decide)⟩

/-- C6: on in-bounds coordinate pairs the query relation is symmetric:
is_connected(a, b) equals is_connected(b, a). -/
theorem C6_query_symmetric (g : Grid) (aX aY bX bY : Nat)
    (ha1 : aX < g.R) (ha2 : aY < g.C) (hb1 : bX < g.R) (hb2 : bY < g.C) :
    (MazeSolver.init g).is_connected g (aX : Int) (aY : Int) (bX : Int) (bY : Int) =
    (MazeSolver.init g).is_connected g (bX : Int) (bY : Int) (aX : Int) (aY : Int) := by
  rw [is_connected_inbounds g g ha1 ha2 hb1 hb2,
    is_connected_inbounds g g hb1 hb2 ha1 ha2,
    acc_symm g (by have := nodeOf_lt ha1 ha2; omega) (nodeOf g aX aY) (nodeOf g bX bY)]

theorem C6_query_symmetric_witness :
    ((0 : Nat) < grid22.R ∧ (1 : Nat) < grid22.C) ∧
    ((MazeSolver.init grid22).is_connected grid22 ((0 : Nat) : Int) ((0 : Nat) : Int)
        ((1 : Nat) : Int) ((1 : Nat) : Int) =
      (MazeSolver.init grid22).is_connected grid22 ((1 : Nat) : Int) ((1 : Nat) : Int)
        ((0 : Nat) : Int) ((0 : Nat) : Int)) :=
  ⟨⟨by decide, by decide⟩,
    C6_query_symmetric grid22 0 0 1 1 (by decide) (by decide) (by decide) (by decide)⟩

/-- C7: for every in-bounds cell, an OPEN cell is connected to itself
(query true) and a WALL cell is not (query false). -/
theorem C7_reflexivity (g : Grid) (i j : Nat) (hi : i < g.R) (hj : j < g.C) :
    (g.cell i j = false →
      (MazeSolver.init g).is_connected g (i : Int) (j : Int) (i : Int) (j : Int)
        = some true) ∧
    (g.cell i j = true →
      (MazeSolver.init g).is_connected g (i : Int) (j : Int) (i : Int) (j : Int)
        = some false) := by
  constructor
  · intro hopen
    exact (is_connected_iff_connected g g hi hj hi hj).mpr
      (connected_self_of_open ⟨hi, hj, hopen⟩)
  · intro hwall
    rw [is_connected_inbounds g g hi hj hi hj, Option.some_inj,
      decide_eq_false_iff_not]
    intro hpos
    have h1 : getE (stepB^[g.R * g.C] (grid_to_adjacency_matrix g))
        (nodeOf g i j) (nodeOf g i j) ≠ 0 := by omega
    have h2 := (acc_entry_iff_transGen g _ _).mp h1
    have h3 := (transGen_node_iff i j i j hj hj).mp h2
    exact not_connected_of_wall hwall h3

theorem C7_reflexivity_witness :
    (grid1.cell 0 0 = false ∧
      (MazeSolver.init grid1).is_connected grid1 ((0 : Nat) : Int) ((0 : Nat) : Int)
        ((0 : Nat) : Int) ((0 : Nat) : Int) = some true) ∧
    (grid1.cell 0 1 = true ∧
      (MazeSolver.init grid1).is_connected grid1 ((0 : Nat) : Int) ((1 : Nat) : Int)
        ((0 : Nat) : Int) ((1 : Nat) : Int) = some false) :=
  ⟨⟨by decide, (C7_reflexivity grid1 0 0 (by decide) (by decide)).1 (by decide)⟩,
   ⟨by decide, (C7_reflexivity grid1 0 1 (by decide) (by decide)).2 (by decide)⟩⟩

/-- C8: on the 3x3 grid with WALL cells (0,1),(1,1),(2,1) the query
(0,0)-(2,2) is false; opening (2,1) makes it true. -/
theorem C8_concrete_3x3 :
    (MazeSolver.init grid1).is_connected grid1 0 0 2 2 = some false ∧
    (MazeSolver.init grid2).is_connected grid2 0 0 2 2 = some true := by
  constructor
  · decide
  · decide

/-- C9: the grid argument of is_connected is ignored: the result only depends
on the engine (hence on the construction grid). -/
theorem C9_grid_argument_ignored (s : MazeSolver) (g1 g2 : Grid)
    (aX aY bX bY : Int) :
    s.is_connected g1 aX aY bX bY = s.is_connected g2 aX aY bX bY := rfl

theorem mgetOpt_first_congr {m : Mat} {i i' : Int}
    (h : npIndex m.length i = npIndex m.length i') (j : Int) :
    mgetOpt m i j = mgetOpt m i' j := by
  unfold mgetOpt
  rw [h]

/-- C10: a query whose first coordinate is -1 flattens to the negative index
aY - C, which NumPy wraps to the last row's node (R-1)*C + aY, so it returns
exactly what the in-bounds query with first coordinate R-1 returns. -/
theorem C10_negative_row_wraps (g : Grid) (hR : 1 ≤ g.R) (hC : 1 ≤ g.C)
    (aY : Nat) (haY : aY < g.C) (bX bY : Nat) (hb1 : bX < g.R) (hb2 : bY < g.C) :
    (MazeSolver.init g).is_connected g (-1) (aY : Int) (bX : Int) (bY : Int) =
    (MazeSolver.init g).is_connected g ((g.R : Int) - 1) (aY : Int) (bX : Int) (bY : Int) := by
  rw [is_connected_eq, is_connected_eq, init_grid, init_accessibility]
  have hN : (stepB^[g.R * g.C] (grid_to_adjacency_matrix g)).length = g.R * g.C :=
    (WF_iter g (g.R * g.C)).1
  have hCM : g.C ≤ g.R * g.C := Nat.le_mul_of_pos_left g.C hR
  have hsub : (g.R - 1) * g.C = g.R * g.C - g.C := by
    rw [Nat.sub_mul, Nat.one_mul]
  have e1 : npIndex (g.R * g.C) (grid_coords_to_adjacency_coords g (-1) (aY : Int)) =
      some ((g.R - 1) * g.C + aY) := by
    simp only [grid_coords_to_adjacency_coords, npIndex]
    split_ifs with h1 h2
    · exfalso
      omega
    · congr 1
      rw [hsub]
      omega
    · exfalso
      omega
  have e2 : npIndex (g.R * g.C)
      (grid_coords_to_adjacency_coords g ((g.R : Int) - 1) (aY : Int)) =
        some ((g.R - 1) * g.C + aY) := by
    have hcast : ((g.R : Int) - 1) * (g.C : Int) + (aY : Int) =
        (((g.R - 1) * g.C + aY : Nat) : Int) := by
      push_cast [Nat.cast_sub hR]
      ring
    have hlt : (g.R - 1) * g.C + aY < g.R * g.C := by
      rw [hsub]
      omega
    show npIndex (g.R * g.C) (((g.R : Int) - 1) * (g.C : Int) + (aY : Int)) = _
    rw [hcast]
    exact npIndex_nat hlt
  have hEq : npIndex (stepB^[g.R * g.C] (grid_to_adjacency_matrix g)).length
        (grid_coords_to_adjacency_coords g (-1) (aY : Int)) =
      npIndex (stepB^[g.R * g.C] (grid_to_adjacency_matrix g)).length
        (grid_coords_to_adjacency_coords g ((g.R : Int) - 1) (aY : Int)) := by
    rw [hN, e1, e2]
  exact congrArg (Option.map _) (mgetOpt_first_congr hEq _)

theorem C10_negative_row_wraps_witness :
    (1 ≤ grid22.R ∧ 1 ≤ grid22.C ∧ (0 : Nat) < grid22.C ∧ (0 : Nat) < grid22.R) ∧
    ((MazeSolver.init grid22).is_connected grid22 (-1) ((0 : Nat) : Int)
        ((0 : Nat) : Int) ((0 : Nat) : Int) =
      (MazeSolver.init grid22).is_connected grid22 ((grid22.R : Int) - 1)
        ((0 : Nat) : Int) ((0 : Nat) : Int) ((0 : Nat) : Int)) :=
  ⟨⟨by decide, by decide, by decide, by decide⟩,
    C10_negative_row_wraps grid22 (by decide) (by decide) 0 (by decide) 0 0
      (by decide) (by decide)⟩

end MazeSpec
